import Mathlib

/-!
Verification development for the ocean-pollution transport pipeline.

Sender side (RaspberryPi/communications.py): the AT command transaction
layer (`AT`), the MQTT session setup sequence (`mqtt_conn`), the image
chunking encoder (`imgToChunks`) and the framing transmitter
(`mqtt_sendimg`).

Receiver side (AWS/pullS3.py): the ingestion scanner embedded in
`pullS3.pull` (recognition of Start/End frame markers, hex decoding and
accumulation of chunks), and the dedup/aggregation loop that builds the
detection record set, hourly counts and the most-recent pointer.

Bodies of stored objects and serial text are modelled as `List Char`;
bytes are modelled as `Nat` with well-formedness `< 256` stated where a
claim needs it.
-/

/-- Fuel-driven slicing loop behind `imgToChunks`, modelling the Python
comprehension `[byte_arr[i:i + x] for i in range(0, len(byte_arr), x)]`
with slice width `step + 1`.  Any `fuel ≥ l.length` produces the full
slicing (each iteration consumes at least one element). -/
def chunkGoF : Nat → List Nat → Nat → List (List Nat)
  | 0, _, _ => []
  | _ + 1, [], _ => []
  | fuel + 1, h :: t, step => ((h :: t).take (step + 1)) :: chunkGoF fuel (t.drop step) step

/-- `imgToChunks` from communications.py: splits a byte array into
consecutive slices of length `chunk_size` (the final slice may be
shorter).  Python `range` with a zero step raises `ValueError`, modelled
by `none`. -/
def imgToChunks (byte_arr : List Nat) (chunk_size : Nat) : Option (List (List Nat)) :=
  if chunk_size = 0 then none
  else some (chunkGoF byte_arr.length byte_arr (chunk_size - 1))

/-- Slice-length sequence of the chunking loop, used to compute chunk
sizes without materialising the chunks. -/
def chunkSizesF : Nat → Nat → Nat → List Nat
  | 0, _, _ => []
  | fuel + 1, n, step => if n = 0 then [] else min (step + 1) n :: chunkSizesF fuel (n - (step + 1)) step

theorem chunkGoF_join : ∀ (fuel : Nat) (l : List Nat) (step : Nat),
    l.length ≤ fuel → (chunkGoF fuel l step).flatten = l := by
  intro fuel
  induction fuel with
  | zero =>
    intro l step h
    have : l = [] := List.eq_nil_of_length_eq_zero (Nat.le_zero.mp h)
    subst this
    rfl
  | succ fuel ih =>
    intro l step h
    cases l with
    | nil => rfl
    | cons a t =>
      have ht : (t.drop step).length ≤ fuel := by
        have := List.length_drop step t
        simp only [List.length_cons] at h
        omega
      simp only [chunkGoF, List.flatten_cons, ih (t.drop step) step ht,
        List.take_succ_cons, List.cons_append, List.take_append_drop]

theorem chunkGoF_length_le : ∀ (fuel : Nat) (l : List Nat) (step : Nat) (s : List Nat),
    s ∈ chunkGoF fuel l step → s.length ≤ step + 1 := by
  intro fuel
  induction fuel with
  | zero => intro l step s h; simp [chunkGoF] at h
  | succ fuel ih =>
    intro l step s h
    cases l with
    | nil => simp [chunkGoF] at h
    | cons a t =>
      simp only [chunkGoF, List.mem_cons] at h
      rcases h with h | h
      · subst h
        simp [List.length_take]
      · exact ih (t.drop step) step s h

theorem chunkGoF_ne_nil_imp : ∀ (fuel : Nat) (l : List Nat) (step : Nat),
    chunkGoF fuel l step ≠ [] → l ≠ [] := by
  intro fuel l step h
  cases fuel with
  | zero => simp [chunkGoF] at h
  | succ fuel =>
    cases l with
    | nil => simp [chunkGoF] at h
    | cons a t => simp

theorem chunkGoF_dropLast_length : ∀ (fuel : Nat) (l : List Nat) (step : Nat) (s : List Nat),
    s ∈ (chunkGoF fuel l step).dropLast → s.length = step + 1 := by
  intro fuel
  induction fuel with
  | zero => intro l step s h; simp [chunkGoF] at h
  | succ fuel ih =>
    intro l step s h
    cases l with
    | nil => simp [chunkGoF] at h
    | cons a t =>
      simp only [chunkGoF] at h
      rcases hrest : chunkGoF fuel (t.drop step) step with _ | ⟨r, rs⟩
      · rw [hrest] at h
        simp at h
      · rw [hrest] at h
        rw [List.dropLast_cons_of_ne_nil (by simp)] at h
        rcases List.mem_cons.mp h with h | h
        · subst h
          have hne : t.drop step ≠ [] := by
            apply chunkGoF_ne_nil_imp fuel (t.drop step) step
            rw [hrest]; simp
          have : step < t.length := by
            by_contra hc
            push_neg at hc
            exact hne (List.drop_eq_nil_of_le hc)
          simp [List.length_take]
          omega
        · exact ih (t.drop step) step s (by rw [hrest]; exact h)

theorem chunkGoF_map_length : ∀ (fuel : Nat) (l : List Nat) (step : Nat),
    (chunkGoF fuel l step).map List.length = chunkSizesF fuel l.length step := by
  intro fuel
  induction fuel with
  | zero => intro l step; rfl
  | succ fuel ih =>
    intro l step
    cases l with
    | nil => simp [chunkGoF, chunkSizesF]
    | cons a t =>
      simp only [chunkGoF, chunkSizesF, List.map_cons, List.length_cons]
      rw [if_neg (by omega)]
      have h1 : (List.take (step + 1) (a :: t)).length = (step + 1) ⊓ (t.length + 1) := by
        simp only [List.length_take, List.length_cons]
      rw [h1, ih (t.drop step) step]
      have h2 : (List.drop step t).length = t.length + 1 - (step + 1) := by
        rw [List.length_drop]
        omega
      rw [h2]

/-- C2: `imgToChunks` returns an ordered partition of the payload: every
segment has length at most the chunk size, consecutive segments
concatenate back to the payload with no gaps or overlaps, every segment
except possibly the last has length exactly the chunk size, and a
12,000-byte payload with chunk size 5,000 yields segments of sizes
[5000, 5000, 2000]. -/
theorem imgToChunks_partition (payload : List Nat) (c : Nat) (chunks : List (List Nat))
    (h : imgToChunks payload c = some chunks) :
    chunks.flatten = payload ∧
    (∀ s ∈ chunks, s.length ≤ c) ∧
    (∀ s ∈ chunks.dropLast, s.length = c) ∧
    (payload = List.replicate 12000 0 → c = 5000 →
      chunks.map List.length = [5000, 5000, 2000]) := by
  unfold imgToChunks at h
  by_cases hc : c = 0
  · simp [hc] at h
  · rw [if_neg hc] at h
    have hchunks : chunks = chunkGoF payload.length payload (c - 1) := by
      exact (Option.some.injEq _ _ ▸ h.symm)
    have hstep : c - 1 + 1 = c := Nat.succ_pred_eq_of_pos (Nat.pos_of_ne_zero hc)
    subst hchunks
    refine ⟨chunkGoF_join payload.length payload (c - 1) (le_refl _), ?_, ?_, ?_⟩
    · intro s hs
      have := chunkGoF_length_le payload.length payload (c - 1) s hs
      omega
    · intro s hs
      have := chunkGoF_dropLast_length payload.length payload (c - 1) s hs
      omega
    · intro hp hc5
      subst hp hc5
      rw [chunkGoF_map_length]
      simp only [List.length_replicate]
      decide

/-- Closed instance of C2 at payload [1, 2, 3] with chunk size 2. -/
theorem imgToChunks_partition_witness :
    ([[1, 2], [3]] : List (List Nat)).flatten = [1, 2, 3] ∧
    (∀ s ∈ ([[1, 2], [3]] : List (List Nat)), s.length ≤ 2) ∧
    (∀ s ∈ ([[1, 2], [3]] : List (List Nat)).dropLast, s.length = 2) ∧
    (([1, 2, 3] : List Nat) = List.replicate 12000 0 → 2 = 5000 →
      ([[1, 2], [3]] : List (List Nat)).map List.length = [5000, 5000, 2000]) :=
  imgToChunks_partition [1, 2, 3] 2 [[1, 2], [3]] (by decide)

/-- Hex digit character for a value below 16, lowercase as produced by
binascii.hexlify. -/
def hexDigit (n : Nat) : Char := if n < 10 then Char.ofNat (48 + n) else Char.ofNat (87 + n)

/-- binascii.hexlify: two lowercase hex digits per byte. -/
def hexlify (bs : List Nat) : List Char :=
  (bs.map (fun b => [hexDigit (b / 16), hexDigit (b % 16)])).flatten

/-- Value of one hex digit character, either case, as accepted by
binascii.unhexlify; none on a non-hex character. -/
def hexVal (c : Char) : Option Nat :=
  if '0' ≤ c ∧ c ≤ '9' then some (c.toNat - 48)
  else if 'a' ≤ c ∧ c ≤ 'f' then some (c.toNat - 87)
  else if 'A' ≤ c ∧ c ≤ 'F' then some (c.toNat - 55)
  else none

/-- binascii.unhexlify: pairs of hex digits to bytes; an odd length or a
non-hex character raises binascii.Error, modelled by none. -/
def unhexlify : List Char → Option (List Nat)
  | [] => some []
  | [_] => none
  | c1 :: c2 :: rest =>
    match hexVal c1, hexVal c2, unhexlify rest with
    | some hi, some lo, some bs => some ((16 * hi + lo) :: bs)
    | _, _, _ => none

/-- Python substring containment helper: is `p` a prefix of the text. -/
def isPrefixChars : List Char → List Char → Bool
  | [], _ => true
  | _ :: _, [] => false
  | a :: as, b :: bs => a == b && isPrefixChars as bs

/-- Python `pat in s` substring containment over character lists. -/
def containsChars (pat : List Char) : List Char → Bool
  | [] => isPrefixChars pat []
  | c :: t => isPrefixChars pat (c :: t) || containsChars pat t

/-- Python str.split(sep) over character lists. -/
def splitChars (sep : Char) : List Char → List (List Char)
  | [] => [[]]
  | c :: cs =>
    match splitChars sep cs with
    | [] => [[]]
    | h :: t => if c = sep then [] :: h :: t else (c :: h) :: t

/-- The substring "Image Start" that pull matches against object bodies. -/
def imageStartPat : List Char := ['I', 'm', 'a', 'g', 'e', ' ', 'S', 't', 'a', 'r', 't']

/-- The literal Start token body compared against in the scanner. -/
def imageStartFull : List Char := ['\x7b', 'I', 'm', 'a', 'g', 'e', ' ', 'S', 't', 'a', 'r', 't', '\x7d']

/-- The literal End token body. -/
def imageEndLit : List Char := ['\x7b', 'I', 'm', 'a', 'g', 'e', ' ', 'E', 'n', 'd', '\x7d']

/-- Metadata parse from a Start object body, translating
`body.replace('}', "").replace('[', "").replace(']', "").split(',')[1:]`
(replace-with-empty is removal of every occurrence, hence a filter). -/
def mdParse (body : List Char) : List (List Char) :=
  (splitChars ','
    (((body.filter (fun c => c ≠ '\x7d')).filter (fun c => c ≠ '[')).filter
      (fun c => c ≠ ']'))).drop 1

/-- A store-side timestamp at the granularity the code observes: whole
seconds (from a midnight-aligned epoch) plus microseconds. -/
structure PyTime where
  sec : Nat
  usec : Nat
deriving DecidableEq

/-- One stored object: its body text and its store-side LastModified. -/
structure S3Obj where
  body : List Char
  lastModified : PyTime
deriving DecidableEq

/-- A finalized frame emitted by the scanner: accumulated decoded bytes,
the End object's LastModified, and the parsed Start metadata (the Python
variable may also hold None, hence the Option). -/
structure Candidate where
  bytes : List Nat
  time : PyTime
  md : Option (List (List Char))
deriving DecidableEq

/-- The scanner's loop state in pull: emitted candidates, the `parsing`
flag, the chunk accumulator `arr` and the `metadata` variable. -/
structure ScanState where
  images : List Candidate
  parsing : Bool
  arr : List Nat
  metadata : Option (List (List Char))
deriving DecidableEq

/-- One iteration of the scanner loop of pull (lines 115-130): a body
containing "Image Start" resets the accumulator and parses metadata,
aborting to non-parsing when fewer than 10 fields are present; while
parsing, the End token finalizes a candidate and any other body is
hex-decoded and appended (a hex error raises, modelled by none). -/
def scanStep (st : ScanState) (obj : S3Obj) : Option ScanState :=
  if containsChars imageStartPat obj.body then
    let md := mdParse obj.body
    if md.length < 10 then
      some { images := st.images, parsing := false, arr := [], metadata := some md }
    else
      some { images := st.images, parsing := true, arr := [], metadata := some md }
  else if st.parsing = true ∧ obj.body ≠ imageStartFull then
    if obj.body = imageEndLit then
      some { images := st.images ++ [⟨st.arr, obj.lastModified, st.metadata⟩],
             parsing := false, arr := st.arr, metadata := none }
    else
      match unhexlify obj.body with
      | none => none
      | some bs => some { st with arr := st.arr ++ bs }
  else
    some st

/-- The scanner loop run over a listing from a given state. -/
def scanFrom (st : ScanState) : List S3Obj → Option ScanState
  | [] => some st
  | o :: rest =>
    match scanStep st o with
    | none => none
    | some st1 => scanFrom st1 rest

/-- Initial scanner state of each pull: no images, parsing False,
empty accumulator, metadata None. -/
def initScan : ScanState := ⟨[], false, [], none⟩

/-- The candidate list produced by the scanning phase of pull. -/
def scan (objs : List S3Obj) : Option (List Candidate) :=
  (scanFrom initScan objs).map ScanState.images

/-- The Start token built by mqtt_sendimg:
`"\x7bImage Start"` followed by `"," + str(metadata)` per header field,
closed by `"\x7d"`. -/
def imageStartHeader (headers : List (List Char)) : List Char :=
  ('\x7b' :: imageStartPat) ++ (headers.map (fun m => ',' :: m)).flatten ++ ['\x7d']

/-- mqtt_sendimg from communications.py, as the ordered list of MQTT
payload bodies it publishes (each becomes one stored object): the Start
token with headers, one hexlified payload per chunk, then the End
token. -/
def mqtt_sendimg (msgs : List (List Nat)) (headers : List (List Char)) : List (List Char) :=
  imageStartHeader headers :: msgs.map hexlify ++ [imageEndLit]

theorem hexVal_hexDigit (n : Nat) (h : n < 16) : hexVal (hexDigit n) = some n := by
  interval_cases n <;> decide

theorem unhexlify_hexlify (bs : List Nat) (h : ∀ b ∈ bs, b < 256) :
    unhexlify (hexlify bs) = some bs := by
  induction bs with
  | nil => rfl
  | cons b t ih =>
    have hb : b < 256 := h b (by simp)
    have hhi : b / 16 < 16 := by omega
    have hlo : b % 16 < 16 := by omega
    have ht : unhexlify (hexlify t) = some t := ih (fun x hx => h x (by simp [hx]))
    show unhexlify (hexDigit (b / 16) :: hexDigit (b % 16) :: hexlify t) = some (b :: t)
    rw [unhexlify, hexVal_hexDigit _ hhi, hexVal_hexDigit _ hlo, ht]
    show some ((16 * (b / 16) + b % 16) :: t) = some (b :: t)
    have : 16 * (b / 16) + b % 16 = b := by omega
    rw [this]

theorem mem_hexlify (bs : List Nat) (h : ∀ b ∈ bs, b < 256) (c : Char)
    (hc : c ∈ hexlify bs) : ∃ n, n < 16 ∧ c = hexDigit n := by
  simp only [hexlify, List.mem_flatten, List.mem_map] at hc
  obtain ⟨pair, ⟨b, hb, hpair⟩, hcp⟩ := hc
  subst hpair
  have hb256 : b < 256 := h b hb
  simp only [List.mem_cons, List.not_mem_nil, or_false] at hcp
  rcases hcp with rfl | rfl
  · exact ⟨b / 16, by omega, rfl⟩
  · exact ⟨b % 16, by omega, rfl⟩

theorem hexDigit_ne_I_brace (n : Nat) (h : n < 16) :
    hexDigit n ≠ 'I' ∧ hexDigit n ≠ '\x7b' := by
  interval_cases n <;> exact ⟨by decide, by decide⟩

theorem containsChars_eq_false_of_head_notMem (c : Char) (p l : List Char) (h : c ∉ l) :
    containsChars (c :: p) l = false := by
  induction l with
  | nil => rfl
  | cons a t ih =>
    have hca : ¬ (c = a) := fun hc => h (by simp [hc])
    have hct : c ∉ t := fun hc => h (by simp [hc])
    simp only [containsChars, isPrefixChars, Bool.or_eq_false_iff, Bool.and_eq_false_iff]
    exact ⟨Or.inl (by simp [hca]), ih hct⟩

theorem hexlify_no_start (bs : List Nat) (h : ∀ b ∈ bs, b < 256) :
    containsChars imageStartPat (hexlify bs) = false := by
  have hI : 'I' ∉ hexlify bs := by
    intro hmem
    obtain ⟨n, hn, heq⟩ := mem_hexlify bs h 'I' hmem
    exact (hexDigit_ne_I_brace n hn).1 heq.symm
  exact containsChars_eq_false_of_head_notMem 'I' _ (hexlify bs) hI

theorem hexlify_ne_brace_lists (bs : List Nat) (h : ∀ b ∈ bs, b < 256) :
    hexlify bs ≠ imageStartFull ∧ hexlify bs ≠ imageEndLit := by
  have hbrace : '\x7b' ∉ hexlify bs := by
    intro hmem
    obtain ⟨n, hn, heq⟩ := mem_hexlify bs h '\x7b' hmem
    exact (hexDigit_ne_I_brace n hn).2 heq.symm
  constructor
  · intro he
    exact hbrace (by rw [he]; decide)
  · intro he
    exact hbrace (by rw [he]; decide)

theorem splitChars_ne_nil (sep : Char) (l : List Char) : splitChars sep l ≠ [] := by
  cases l with
  | nil => simp [splitChars]
  | cons c cs =>
    simp only [splitChars]
    rcases h : splitChars sep cs with _ | ⟨h1, t1⟩
    · simp
    · by_cases hc : c = sep <;> simp [hc]

theorem splitChars_no_sep (sep : Char) (l : List Char) (h : sep ∉ l) : splitChars sep l = [l] := by
  induction l with
  | nil => rfl
  | cons c cs ih =>
    have hc : ¬ (c = sep) := fun he => h (by simp [he])
    have hcs : sep ∉ cs := fun hm => h (by simp [hm])
    simp only [splitChars, ih hcs]
    simp [hc]

theorem splitChars_append_sep (sep : Char) (a r : List Char) (ha : sep ∉ a) :
    splitChars sep (a ++ sep :: r) = a :: splitChars sep r := by
  induction a with
  | nil =>
    simp only [List.nil_append, splitChars]
    rcases h : splitChars sep r with _ | ⟨h1, t1⟩
    · exact absurd h (splitChars_ne_nil sep r)
    · simp
  | cons c cs ih =>
    have hc : ¬ (c = sep) := fun he => ha (by simp [he])
    have hcs : sep ∉ cs := fun hm => ha (by simp [hm])
    show splitChars sep (c :: (cs ++ sep :: r)) = (c :: cs) :: splitChars sep r
    simp only [splitChars]
    rw [ih hcs]
    simp [hc]

theorem splitChars_prefix_fields (ms : List (List Char)) (a : List Char) (ha : ',' ∉ a)
    (hms : ∀ m ∈ ms, ',' ∉ m) :
    splitChars ',' (a ++ (ms.map (fun m => ',' :: m)).flatten) = a :: ms := by
  induction ms generalizing a with
  | nil => simp [splitChars_no_sep ',' a ha]
  | cons m ms ih =>
    simp only [List.map_cons, List.flatten_cons]
    have hre : a ++ ((',' :: m) ++ (ms.map (fun m => ',' :: m)).flatten) =
        a ++ ',' :: (m ++ (ms.map (fun m => ',' :: m)).flatten) := by
      simp
    rw [hre, splitChars_append_sep ',' a _ ha,
      ih m (hms m (by simp)) (fun x hx => hms x (by simp [hx]))]

theorem isPrefixChars_append (p q : List Char) : isPrefixChars p (p ++ q) = true := by
  induction p with
  | nil => rfl
  | cons c cs ih => simp [isPrefixChars, ih]

theorem containsChars_of_prefixChars (p l : List Char) (h : isPrefixChars p l = true) :
    containsChars p l = true := by
  cases l with
  | nil => exact h
  | cons c t => simp [containsChars, h]

theorem containsChars_cons (p : List Char) (c : Char) (l : List Char) :
    containsChars p (c :: l) = (isPrefixChars p (c :: l) || containsChars p l) := rfl

theorem containsChars_header (ms : List (List Char)) :
    containsChars imageStartPat (imageStartHeader ms) = true := by
  have hform : imageStartHeader ms =
      '\x7b' :: (imageStartPat ++ ((ms.map (fun m => ',' :: m)).flatten ++ ['\x7d'])) := by
    simp [imageStartHeader, List.cons_append, List.append_assoc]
  rw [hform, containsChars_cons,
    containsChars_of_prefixChars _ _ (isPrefixChars_append imageStartPat _), Bool.or_true]

theorem mdParse_header (ms : List (List Char))
    (hclean : ∀ m ∈ ms, ∀ c ∈ m, c ≠ ',' ∧ c ≠ '\x7d' ∧ c ≠ '[' ∧ c ≠ ']') :
    mdParse (imageStartHeader ms) = ms := by
  have hmemflat : ∀ c ∈ (ms.map (fun m => ',' :: m)).flatten,
      c = ',' ∨ ∃ m ∈ ms, c ∈ m := by
    intro c hc
    rw [List.mem_flatten] at hc
    obtain ⟨l, hl, hcl⟩ := hc
    rw [List.mem_map] at hl
    obtain ⟨m, hm, rfl⟩ := hl
    rcases List.mem_cons.mp hcl with rfl | hcm
    · exact Or.inl rfl
    · exact Or.inr ⟨m, hm, hcm⟩
  have hflat1 : ((ms.map (fun m => ',' :: m)).flatten).filter (fun c => c ≠ '\x7d') =
      (ms.map (fun m => ',' :: m)).flatten := by
    rw [List.filter_eq_self]
    intro c hc
    rcases hmemflat c hc with rfl | ⟨m, hm, hcm⟩
    · decide
    · simp [(hclean m hm c hcm).2.1]
  have hflat2 : ((ms.map (fun m => ',' :: m)).flatten).filter (fun c => c ≠ '[') =
      (ms.map (fun m => ',' :: m)).flatten := by
    rw [List.filter_eq_self]
    intro c hc
    rcases hmemflat c hc with rfl | ⟨m, hm, hcm⟩
    · decide
    · simp [(hclean m hm c hcm).2.2.1]
  have hflat3 : ((ms.map (fun m => ',' :: m)).flatten).filter (fun c => c ≠ ']') =
      (ms.map (fun m => ',' :: m)).flatten := by
    rw [List.filter_eq_self]
    intro c hc
    rcases hmemflat c hc with rfl | ⟨m, hm, hcm⟩
    · decide
    · simp [(hclean m hm c hcm).2.2.2]
  have hA : ((('\x7b' :: imageStartPat).filter (fun c => c ≠ '\x7d')).filter
      (fun c => c ≠ '[')).filter (fun c => c ≠ ']') = '\x7b' :: imageStartPat := by decide
  have hB : (((['\x7d'] : List Char).filter (fun c => c ≠ '\x7d')).filter
      (fun c => c ≠ '[')).filter (fun c => c ≠ ']') = [] := by decide
  have hfilters :
      ((((imageStartHeader ms).filter (fun c => c ≠ '\x7d')).filter
        (fun c => c ≠ '[')).filter (fun c => c ≠ ']')) =
      ('\x7b' :: imageStartPat) ++ (ms.map (fun m => ',' :: m)).flatten := by
    unfold imageStartHeader
    simp only [List.filter_append, hflat1, hflat2, hflat3, hA, hB, List.append_nil]
  unfold mdParse
  rw [hfilters, splitChars_prefix_fields ms ('\x7b' :: imageStartPat) (by decide)
    (fun m hm hmem => (hclean m hm ',' hmem).1 rfl)]
  simp

theorem scanStep_start (st : ScanState) (obj : S3Obj)
    (h : containsChars imageStartPat obj.body = true) :
    scanStep st obj =
      if (mdParse obj.body).length < 10 then
        some ⟨st.images, false, [], some (mdParse obj.body)⟩
      else
        some ⟨st.images, true, [], some (mdParse obj.body)⟩ := by
  unfold scanStep
  rw [if_pos h]

theorem scanStep_hex (imgs : List Candidate) (a : List Nat)
    (md : Option (List (List Char))) (obj : S3Obj) (ch : List Nat)
    (hbody : obj.body = hexlify ch) (hb : ∀ b ∈ ch, b < 256) :
    scanStep ⟨imgs, true, a, md⟩ obj = some ⟨imgs, true, a ++ ch, md⟩ := by
  unfold scanStep
  rw [hbody]
  rw [if_neg (by rw [hexlify_no_start ch hb]; exact Bool.false_ne_true)]
  rw [if_pos ⟨rfl, (hexlify_ne_brace_lists ch hb).1⟩]
  rw [if_neg (hexlify_ne_brace_lists ch hb).2]
  rw [unhexlify_hexlify ch hb]

theorem scanStep_end (imgs : List Candidate) (a : List Nat)
    (md : Option (List (List Char))) (obj : S3Obj) (hbody : obj.body = imageEndLit) :
    scanStep ⟨imgs, true, a, md⟩ obj =
      some ⟨imgs ++ [⟨a, obj.lastModified, md⟩], false, a, none⟩ := by
  unfold scanStep
  rw [hbody]
  rw [if_neg (by decide)]
  rw [if_pos ⟨rfl, by decide⟩]
  rw [if_pos rfl]

theorem scanFrom_chunks_end : ∀ (chunks : List (List Nat)) (objs : List S3Obj)
    (imgs : List Candidate) (a : List Nat) (md : Option (List (List Char))),
    objs.map S3Obj.body = chunks.map hexlify ++ [imageEndLit] →
    (∀ ch ∈ chunks, ∀ b ∈ ch, b < 256) →
    ∃ oEnd, objs.getLast? = some oEnd ∧
      scanFrom ⟨imgs, true, a, md⟩ objs =
        some ⟨imgs ++ [⟨a ++ chunks.flatten, oEnd.lastModified, md⟩], false,
              a ++ chunks.flatten, none⟩ := by
  intro chunks
  induction chunks with
  | nil =>
    intro objs imgs a md hmap hb
    cases objs with
    | nil => simp at hmap
    | cons o rest =>
      cases rest with
      | cons o2 r2 => simp at hmap
      | nil =>
        simp only [List.map_cons, List.map_nil, List.nil_append] at hmap
        have hb0 : o.body = imageEndLit := (List.cons.injEq _ _ _ _ ▸ hmap).1
        refine ⟨o, rfl, ?_⟩
        simp only [scanFrom, scanStep_end imgs a md o hb0]
        simp
  | cons ch chs ih =>
    intro objs imgs a md hmap hb
    cases objs with
    | nil => simp at hmap
    | cons o rest =>
      simp only [List.map_cons, List.cons_append] at hmap
      have ho : o.body = hexlify ch := (List.cons.injEq _ _ _ _ ▸ hmap).1
      have hrest : rest.map S3Obj.body = chs.map hexlify ++ [imageEndLit] :=
        (List.cons.injEq _ _ _ _ ▸ hmap).2
      have hstep := scanStep_hex imgs a md o ch ho (hb ch (by simp))
      obtain ⟨oEnd, hlast, hscan⟩ :=
        ih rest imgs (a ++ ch) md hrest (fun c hc b hbm => hb c (by simp [hc]) b hbm)
      have hne : rest ≠ [] := by
        intro he
        rw [he] at hrest
        simp at hrest
      refine ⟨oEnd, ?_, ?_⟩
      · rcases rest with _ | ⟨r1, rt⟩
        · exact absurd rfl hne
        · rw [List.getLast?_cons_cons]
          exact hlast
      · simp only [scanFrom, hstep]
        rw [hscan]
        simp [List.append_assoc]

/-- C1: round-trip through the transport: chunking a payload with
imgToChunks, publishing it with mqtt_sendimg (Start token carrying at
least 10 comma-free metadata fields, hex chunks in order, End token), and
scanning the resulting store objects with the accumulation loop of pull
yields exactly one candidate holding the original payload bytes, the End
object's timestamp and the original metadata. -/
theorem scan_roundTrip (payload : List Nat) (c : Nat) (chunks : List (List Nat))
    (md : List (List Char)) (objs : List S3Obj)
    (hbytes : ∀ b ∈ payload, b < 256)
    (hchunks : imgToChunks payload c = some chunks)
    (hmdlen : 10 ≤ md.length)
    (hmdclean : ∀ m ∈ md, ∀ ch ∈ m, ch ≠ ',' ∧ ch ≠ '\x7d' ∧ ch ≠ '[' ∧ ch ≠ ']')
    (hobjs : objs.map S3Obj.body = mqtt_sendimg chunks md) :
    ∃ oEnd, objs.getLast? = some oEnd ∧
      scan objs = some [⟨payload, oEnd.lastModified, some md⟩] := by
  have hjoin : chunks.flatten = payload :=
    (imgToChunks_partition payload c chunks hchunks).1
  have hchb : ∀ ch ∈ chunks, ∀ b ∈ ch, b < 256 := by
    intro ch hch b hbm
    exact hbytes b (hjoin ▸ List.mem_flatten.mpr ⟨ch, hch, hbm⟩)
  cases objs with
  | nil => simp [mqtt_sendimg] at hobjs
  | cons o0 rest =>
    simp only [mqtt_sendimg, List.map_cons] at hobjs
    have ho0 : o0.body = imageStartHeader md := (List.cons.injEq _ _ _ _ ▸ hobjs).1
    have hrest : rest.map S3Obj.body = chunks.map hexlify ++ [imageEndLit] :=
      (List.cons.injEq _ _ _ _ ▸ hobjs).2
    have hcont : containsChars imageStartPat o0.body = true := by
      rw [ho0]; exact containsChars_header md
    have hmdp : mdParse o0.body = md := by
      rw [ho0]; exact mdParse_header md hmdclean
    have hstep1 : scanStep initScan o0 = some ⟨[], true, [], some md⟩ := by
      rw [scanStep_start initScan o0 hcont, hmdp, if_neg (by omega)]
      rfl
    obtain ⟨oEnd, hlast, hscan⟩ :=
      scanFrom_chunks_end chunks rest [] [] (some md) hrest hchb
    have hne : rest ≠ [] := by
      intro he
      rw [he] at hrest
      rcases chunks with _ | ⟨c1, ct⟩ <;> simp at hrest
    refine ⟨oEnd, ?_, ?_⟩
    · rcases rest with _ | ⟨r1, rt⟩
      · exact absurd rfl hne
      · rw [List.getLast?_cons_cons]
        exact hlast
    · unfold scan
      simp only [scanFrom, hstep1]
      rw [hscan]
      simp [hjoin]

/-- Ten single-character metadata fields for concrete frames. -/
def demoMd : List (List Char) :=
  [['0'], ['1'], ['2'], ['3'], ['4'], ['5'], ['6'], ['7'], ['8'], ['9']]

/-- A concrete well-formed frame in the store: Start token with ten
fields, two hex chunks, End token. -/
def demoFrameObjs : List S3Obj :=
  [⟨imageStartHeader demoMd, ⟨0, 0⟩⟩, ⟨hexlify [171], ⟨1, 0⟩⟩,
   ⟨hexlify [205], ⟨2, 0⟩⟩, ⟨imageEndLit, ⟨3, 0⟩⟩]

/-- Closed instance of C1: scanning the concrete two-chunk frame
reconstructs the payload [171, 205]. -/
theorem scan_roundTrip_witness :
    ∃ oEnd, demoFrameObjs.getLast? = some oEnd ∧
      scan demoFrameObjs = some [⟨[171, 205], oEnd.lastModified, some demoMd⟩] :=
  scan_roundTrip [171, 205] 1 [[171], [205]] demoMd demoFrameObjs
    (by decide) (by decide) (by decide) (by decide) (by decide)

theorem scanStep_images_shape (st : ScanState) (obj : S3Obj) (stN : ScanState)
    (h : scanStep st obj = some stN) :
    stN.images = st.images ∨
      obj.body = imageEndLit ∧ ∃ cand, stN.images = st.images ++ [cand] := by
  by_cases h1 : containsChars imageStartPat obj.body = true
  · rw [scanStep_start st obj h1] at h
    by_cases h2 : (mdParse obj.body).length < 10
    · rw [if_pos h2] at h
      have := Option.some.inj h
      subst this
      exact Or.inl rfl
    · rw [if_neg h2] at h
      have := Option.some.inj h
      subst this
      exact Or.inl rfl
  · unfold scanStep at h
    rw [if_neg h1] at h
    by_cases h2 : st.parsing = true ∧ obj.body ≠ imageStartFull
    · rw [if_pos h2] at h
      by_cases h3 : obj.body = imageEndLit
      · rw [if_pos h3] at h
        have := Option.some.inj h
        subst this
        exact Or.inr ⟨h3, ⟨st.arr, obj.lastModified, st.metadata⟩, rfl⟩
      · rw [if_neg h3] at h
        rcases hu : unhexlify obj.body with _ | bs
        · rw [hu] at h
          cases h
        · rw [hu] at h
          have := Option.some.inj h
          subst this
          exact Or.inl rfl
    · rw [if_neg h2] at h
      have := Option.some.inj h
      subst this
      exact Or.inl rfl

theorem scanFrom_images_of_no_end : ∀ (objs : List S3Obj) (st st' : ScanState),
    (∀ o ∈ objs, o.body ≠ imageEndLit) → scanFrom st objs = some st' →
    st'.images = st.images := by
  intro objs
  induction objs with
  | nil =>
    intro st st' _ h
    have := Option.some.inj h
    subst this
    rfl
  | cons o rest ih =>
    intro st st' hno h
    unfold scanFrom at h
    rcases hs : scanStep st o with _ | st1
    · rw [hs] at h
      cases h
    · rw [hs] at h
      have hrest := ih st1 st' (fun x hx => hno x (by simp [hx])) h
      rcases scanStep_images_shape st o st1 hs with heq | ⟨hend, _⟩
      · rw [hrest, heq]
      · exact absurd hend (hno o (by simp))

/-- C4: frames without an End token produce no output: (a) a body
carrying the Start token resets the accumulator to empty and emits
nothing, discarding any bytes accumulated for an unterminated frame;
(b) scanning any listing containing no End token emits no candidate;
(c) a scanner step only ever appends a candidate when the object is the
End token. -/
theorem scanner_no_end (st : ScanState) (obj : S3Obj) (objs : List S3Obj)
    (st' : ScanState) :
    (containsChars imageStartPat obj.body = true →
      ∃ stN, scanStep st obj = some stN ∧ stN.arr = [] ∧ stN.images = st.images) ∧
    ((∀ o ∈ objs, o.body ≠ imageEndLit) → scanFrom st objs = some st' →
      st'.images = st.images) ∧
    (∀ stN, scanStep st obj = some stN →
      stN.images = st.images ∨
        obj.body = imageEndLit ∧ ∃ cand, stN.images = st.images ++ [cand]) := by
  refine ⟨?_, ?_, ?_⟩
  · intro h1
    rw [scanStep_start st obj h1]
    by_cases h2 : (mdParse obj.body).length < 10
    · rw [if_pos h2]
      exact ⟨_, rfl, rfl, rfl⟩
    · rw [if_neg h2]
      exact ⟨_, rfl, rfl, rfl⟩
  · exact fun hno h => scanFrom_images_of_no_end objs st st' hno h
  · exact fun stN h => scanStep_images_shape st obj stN h

/-- A Start token with only one metadata field (malformed: below the
10-field minimum). -/
def demoBadStart : S3Obj := ⟨imageStartHeader [['7']], ⟨9, 0⟩⟩

/-- The scanner state right after consuming demoBadStart from the
initial state. -/
def demoBadState : ScanState := ⟨[], false, [], some [['7']]⟩

/-- A listing holding a single hex chunk object and no marker. -/
def demoHexOnly : List S3Obj := [⟨hexlify [171], ⟨1, 0⟩⟩]

/-- Closed instance of C4 at the initial state, a malformed Start
object, and a one-chunk listing with no End token. -/
theorem scanner_no_end_witness :
    (∃ stN, scanStep initScan demoBadStart = some stN ∧ stN.arr = [] ∧
      stN.images = initScan.images) ∧
    initScan.images = initScan.images ∧
    (demoBadState.images = initScan.images ∨
      demoBadStart.body = imageEndLit ∧
        ∃ cand, demoBadState.images = initScan.images ++ [cand]) := by
  refine ⟨(scanner_no_end initScan demoBadStart demoHexOnly initScan).1 (by decide),
    (scanner_no_end initScan demoBadStart demoHexOnly initScan).2.1
      (by decide) (by decide),
    (scanner_no_end initScan demoBadStart demoHexOnly initScan).2.2
      demoBadState (by decide)⟩

theorem scanFrom_images_parsing_false : ∀ (objs : List S3Obj) (imgs : List Candidate)
    (a1 a2 : List Nat) (m1 m2 : Option (List (List Char))),
    (scanFrom ⟨imgs, false, a1, m1⟩ objs).map ScanState.images =
    (scanFrom ⟨imgs, false, a2, m2⟩ objs).map ScanState.images := by
  intro objs
  induction objs with
  | nil => intro imgs a1 a2 m1 m2; rfl
  | cons o rest ih =>
    intro imgs a1 a2 m1 m2
    by_cases h1 : containsChars imageStartPat o.body = true
    · have e1 := scanStep_start ⟨imgs, false, a1, m1⟩ o h1
      have e2 := scanStep_start ⟨imgs, false, a2, m2⟩ o h1
      simp only [scanFrom, e1, e2]
    · have e1 : scanStep ⟨imgs, false, a1, m1⟩ o = some ⟨imgs, false, a1, m1⟩ := by
        unfold scanStep
        rw [if_neg h1, if_neg (by simp)]
      have e2 : scanStep ⟨imgs, false, a2, m2⟩ o = some ⟨imgs, false, a2, m2⟩ := by
        unfold scanStep
        rw [if_neg h1, if_neg (by simp)]
      simp only [scanFrom, e1, e2]
      exact ih imgs a1 a2 m1 m2

/-- C5: a Start token with fewer than 10 metadata fields aborts the
scanner back to the non-parsing state: the frame is skipped (no candidate
emitted), and scanning of the remaining listing produces the same
candidates as from a pristine idle state — no state corruption. -/
theorem scanner_malformed_start (st : ScanState) (obj : S3Obj) (rest : List S3Obj)
    (hstart : containsChars imageStartPat obj.body = true)
    (hshort : (mdParse obj.body).length < 10) :
    ∃ st', scanStep st obj = some st' ∧ st'.parsing = false ∧
      st'.images = st.images ∧
      (scanFrom st' rest).map ScanState.images =
      (scanFrom ⟨st.images, false, [], none⟩ rest).map ScanState.images := by
  refine ⟨⟨st.images, false, [], some (mdParse obj.body)⟩, ?_, rfl, rfl, ?_⟩
  · rw [scanStep_start st obj hstart, if_pos hshort]
  · exact scanFrom_images_parsing_false rest st.images [] []
      (some (mdParse obj.body)) none

/-- Closed instance of C5: the malformed Start object followed by a full
well-formed frame. -/
theorem scanner_malformed_start_witness :
    ∃ st', scanStep initScan demoBadStart = some st' ∧ st'.parsing = false ∧
      st'.images = initScan.images ∧
      (scanFrom st' demoFrameObjs).map ScanState.images =
      (scanFrom ⟨initScan.images, false, [], none⟩ demoFrameObjs).map ScanState.images :=
  scanner_malformed_start initScan demoBadStart demoFrameObjs (by decide) (by decide)

/-- Outcome of one AT transaction, as communications.py encodes it:
`success` is the return value 1, `mismatch` is 0, `noResponse` is the
implicit None of the no-response path. -/
inductive ATResult where
  | success
  | mismatch
  | noResponse
deriving DecidableEq

/-- The AT function of communications.py over an abstract serial channel:
`waiting` is the byte text buffered on the channel when the fixed sleep of
`timeout` seconds ends (empty when `ser.inWaiting()` is zero).  The first
component is the list of writes performed (the command plus the CRLF line
terminator, written exactly once); the second is the outcome: non-empty
buffer not containing `back` gives mismatch, non-empty buffer containing
`back` gives success, empty buffer gives noResponse.  The `timeout`
argument only controls real-time waiting and never the outcome. -/
def AT (command back : String) (timeout : Nat) (waiting : List Char) :
    List String × ATResult :=
  let _ := timeout
  ([command ++ "\r\n"],
   if waiting ≠ [] then
     if containsChars back.data waiting = false then ATResult.mismatch
     else ATResult.success
   else ATResult.noResponse)

/-- C6: the AT transaction writes the command plus the line terminator to
the channel exactly once (no retries), and its outcome is mismatch
exactly when the buffered text is non-empty and does not contain the
expected substring, noResponse exactly when nothing was read, success
otherwise; the fixed timeout influences nothing but the wait. -/
theorem AT_transaction (command back : String) (timeout : Nat) (waiting : List Char) :
    (AT command back timeout waiting).1 = [command ++ "\r\n"] ∧
    ((AT command back timeout waiting).2 = ATResult.mismatch ↔
      waiting ≠ [] ∧ containsChars back.data waiting = false) ∧
    ((AT command back timeout waiting).2 = ATResult.noResponse ↔ waiting = []) ∧
    ((AT command back timeout waiting).2 = ATResult.success ↔
      waiting ≠ [] ∧ containsChars back.data waiting = true) ∧
    (∀ t2 : Nat, AT command back t2 waiting = AT command back timeout waiting) := by
  refine ⟨rfl, ?_, ?_, ?_, fun t2 => rfl⟩ <;>
    (by_cases hw : waiting = []
     · simp [AT, hw]
     · cases hcb : containsChars back.data waiting
       · simp [AT, hw, hcb]
       · simp [AT, hw, hcb])

/-- The mqtt_conn session setup of communications.py: a fixed linear
sequence of six AT transactions interleaved with two raw serial writes
(the will topic and the will message).  `rs` supplies the channel text
buffered for each of the six transactions in order.  The first component
collects every write to the channel in order; the second the six
transaction outcomes. -/
def mqtt_conn (topic message endpoint port : String) (rs : List (List Char)) :
    List String × List ATResult :=
  let a1 := AT "AT+CMQTTSTART" "+CMQTTSTART: 0" 1 (rs.getD 0 [])
  let a2 := AT "AT+CMQTTACCQ=0,\"SIMCom_client01\",1" "OK" 1 (rs.getD 1 [])
  let a3 := AT "AT+CMQTTSSLCFG=0,0" "OK" 1 (rs.getD 2 [])
  let a4 := AT ("AT+CMQTTWILLTOPIC=0," ++ toString topic.length) ">" 2 (rs.getD 3 [])
  let a5 := AT ("AT+CMQTTWILLMSG=0," ++ toString message.length ++ ",1") ">" 2 (rs.getD 4 [])
  let a6 := AT ("AT+CMQTTCONNECT=0,\"tcp://" ++ endpoint ++ ":" ++ port ++ "\",60,1")
    "+CMQTTCONNECT: 0,0" 4 (rs.getD 5 [])
  (a1.1 ++ a2.1 ++ a3.1 ++ a4.1 ++ [topic] ++ a5.1 ++ [message] ++ a6.1,
   [a1.2, a2.2, a3.2, a4.2, a5.2, a6.2])

/-- C7: the AT layer is fail-open and mqtt_conn never aborts: for every
assignment of channel responses — including ones that make individual
steps come out mismatch or noResponse — the session setup performs the
same full, ordered sequence of writes (all six commands plus the two raw
uploads) and yields an outcome for every one of its six transactions. -/
theorem mqtt_conn_fail_open (topic message endpoint port : String)
    (rs : List (List Char)) :
    (mqtt_conn topic message endpoint port rs).1 =
      ["AT+CMQTTSTART" ++ "\r\n",
       "AT+CMQTTACCQ=0,\"SIMCom_client01\",1" ++ "\r\n",
       "AT+CMQTTSSLCFG=0,0" ++ "\r\n",
       "AT+CMQTTWILLTOPIC=0," ++ toString topic.length ++ "\r\n",
       topic,
       "AT+CMQTTWILLMSG=0," ++ toString message.length ++ ",1" ++ "\r\n",
       message,
       "AT+CMQTTCONNECT=0,\"tcp://" ++ endpoint ++ ":" ++ port ++ "\",60,1" ++ "\r\n"] ∧
    ∀ rs2 : List (List Char),
      (mqtt_conn topic message endpoint port rs2).1 =
      (mqtt_conn topic message endpoint port rs).1 ∧
      (mqtt_conn topic message endpoint port rs2).2.length =
      (mqtt_conn topic message endpoint port rs).2.length :=
  ⟨rfl, fun _ => ⟨rfl, rfl⟩⟩

/-- datetimeToString from pullS3.py: slices the datetime's string form
into a second-resolution key, dropping microseconds.  The calendar
rendering is abstracted into an injective rendering of the whole-second
count; the key ignores `usec` exactly as the source slicing does. -/
def datetimeToString (dt : PyTime) : String := toString dt.sec

/-- roundTime from pullS3.py: rounds to the nearest `roundTo` seconds.
`(dt - dt.min).seconds` is the whole-second offset within the day, so it
is `sec % 86400` for a midnight-aligned epoch; the result zeroes the
microseconds as the source subtracts `dt.microsecond`.  (The source uses
float division `roundTo / 2`; for the even `roundTo = 3600` used by pull
this equals Nat division.) -/
def roundTime (dt : PyTime) (roundTo : Nat) : PyTime :=
  let seconds := dt.sec % 86400
  let rounding := (seconds + roundTo / 2) / roundTo * roundTo
  ⟨dt.sec + rounding - seconds, 0⟩

/-- Accumulated value of a digit run. -/
def digitsVal (l : List Char) : Nat := l.foldl (fun a c => 10 * a + (c.toNat - 48)) 0

/-- Python float() on the plain decimal literals the metadata fields
carry (optional sign, digits, optional fractional part), with exact
rational arithmetic standing in for the IEEE value; exponent forms and
parse failures do not occur in the claims below, which are
parser-independent. -/
def pyFloat (s : List Char) : ℚ :=
  match s with
  | '-' :: t => - pyFloatCore t
  | '+' :: t => pyFloatCore t
  | t => pyFloatCore t
where
  pyFloatCore (t : List Char) : ℚ :=
    let ip := t.takeWhile Char.isDigit
    let rest := t.dropWhile Char.isDigit
    let fp := match rest with
      | '.' :: r => r.takeWhile Char.isDigit
      | _ => []
    (digitsVal ip : ℚ) + (digitsVal fp : ℚ) / (10 : ℚ) ^ fp.length

/-- One row of the map_data frame built by pull; `sizeWeight` is the
`_size_` column. -/
structure DetectionRecord where
  numberOfClusters : ℚ
  date : String
  lat : ℚ
  lon : ℚ
  temp : ℚ
  humidity : ℚ
  pressure : ℚ
  pitch : ℚ
  roll : ℚ
  yaw : ℚ
  sizeWeight : ℚ
deriving DecidableEq

/-- The map_data row appended for a candidate by pull (lines 146-151):
every numeric column is float() of the corresponding metadata index, the
Date column is the dedup key, and `_size_` is float(metadata[2]) + 1. -/
def mkRecord (img : Candidate) : DetectionRecord :=
  let m := img.md.getD []
  { numberOfClusters := pyFloat (m.getD 2 [])
    date := datetimeToString img.time
    lat := pyFloat (m.getD 0 [])
    lon := pyFloat (m.getD 1 [])
    temp := pyFloat (m.getD 4 [])
    humidity := pyFloat (m.getD 5 [])
    pressure := pyFloat (m.getD 6 [])
    pitch := pyFloat (m.getD 7 [])
    roll := pyFloat (m.getD 8 [])
    yaw := pyFloat (m.getD 9 [])
    sizeWeight := pyFloat (m.getD 2 []) + 1 }

/-- Python truthiness of the candidate's metadata (`if img[2]:`): None
and the empty list are falsy. -/
def mdTruthy : Option (List (List Char)) → Bool
  | none => false
  | some l => !l.isEmpty

/-- The instance state of pullS3 that pull mutates: the processed-keys
list `files`, the map_data record list, the hourly (Date, Count) rows,
the filenames of images persisted by im.save, and the mostRecent
pointer. -/
structure PullState where
  files : List String
  map_data : List DetectionRecord
  hourly : List (PyTime × Nat)
  persisted : List String
  mostRecent : Option String
deriving DecidableEq

/-- `getIndexes(self.hourly, roundDate)[0][0]` followed by
`self.hourly.at[loc, "Count"] += 1`: getIndexes scans the Date column
first (an integer Count never equals a datetime), so the first row whose
Date equals the rounded date has its Count incremented. -/
def hourlyIncr : List (PyTime × Nat) → PyTime → List (PyTime × Nat)
  | [], _ => []
  | (d, cnt) :: t, rd => if d = rd then (d, cnt + 1) :: t else (d, cnt) :: hourlyIncr t rd

/-- The dedup/aggregation body of pull for one candidate (lines 140-159
minus the newest pointer): skip entirely when the key is already in
files; otherwise persist the image, append a map_data row when the
metadata is truthy, record the key, insert an hourly row at count 0 when
the rounded hour is absent, and increment the first matching hourly
row. -/
def processImg (st : PullState) (img : Candidate) : PullState :=
  let key := datetimeToString img.time
  if key ∈ st.files then st
  else
    let st1 : PullState :=
      { st with persisted := st.persisted ++ ["./assets/" ++ key ++ ".png"] }
    let st2 : PullState :=
      if mdTruthy img.md then { st1 with map_data := st1.map_data ++ [mkRecord img] }
      else st1
    let st3 : PullState := { st2 with files := st2.files ++ [key] }
    let rd := roundTime img.time 3600
    let st4 : PullState :=
      if rd ∈ st3.hourly.map Prod.fst then st3
      else { st3 with hourly := st3.hourly ++ [(rd, 0)] }
    { st4 with hourly := hourlyIncr st4.hourly rd }

/-- The full dedup/aggregation loop of pull over the scanned
candidates. -/
def processLoop : PullState → List Candidate → PullState
  | st, [] => st
  | st, img :: rest => processLoop (processImg st img) rest

/-- pull from pullS3.py as a state transformer over the instance fields,
together with a normal-termination flag: `false` means the call raised —
either a binascii error in the scanning loop (which mutates no instance
field) or, when the scanner finalized zero frames, the TypeError from
subscripting the still-None `newest` at the final
`self.mostRecent = datetimeToString(newest[1])` line (reached after the
dedup loop, which over zero candidates changed nothing). -/
def pull (store : List S3Obj) (st : PullState) : PullState × Bool :=
  match scan store with
  | none => (st, false)
  | some imgs =>
    let st1 := processLoop st imgs
    match imgs.getLast? with
    | none => (st1, false)
    | some img => ({ st1 with mostRecent := some (datetimeToString img.time) }, true)

theorem pull_eq_of_scan (store : List S3Obj) (st : PullState) (imgs : List Candidate)
    (hs : scan store = some imgs) :
    pull store st =
      match imgs.getLast? with
      | none => (processLoop st imgs, false)
      | some img =>
        ({ processLoop st imgs with mostRecent := some (datetimeToString img.time) },
         true) := by
  unfold pull
  rw [hs]

theorem pull_eq_of_last (store : List S3Obj) (st : PullState) (imgs : List Candidate)
    (img : Candidate) (hs : scan store = some imgs) (hl : imgs.getLast? = some img) :
    pull store st =
      ({ processLoop st imgs with mostRecent := some (datetimeToString img.time) },
       true) := by
  rw [pull_eq_of_scan store st imgs hs, hl]

theorem processImg_of_seen (st : PullState) (img : Candidate)
    (h : datetimeToString img.time ∈ st.files) : processImg st img = st := by
  unfold processImg
  rw [if_pos h]

theorem processImg_files_eq (st : PullState) (img : Candidate) :
    (processImg st img).files =
      if datetimeToString img.time ∈ st.files then st.files
      else st.files ++ [datetimeToString img.time] := by
  unfold processImg
  by_cases h0 : datetimeToString img.time ∈ st.files
  · rw [if_pos h0, if_pos h0]
  · rw [if_neg h0, if_neg h0]
    split <;> (dsimp only; split <;> rfl)

theorem processImg_key_mem (st : PullState) (img : Candidate) :
    datetimeToString img.time ∈ (processImg st img).files := by
  rw [processImg_files_eq]
  by_cases h : datetimeToString img.time ∈ st.files
  · rw [if_pos h]
    exact h
  · rw [if_neg h]
    simp

theorem processImg_files_mono (st : PullState) (img : Candidate) (k : String)
    (h : k ∈ st.files) : k ∈ (processImg st img).files := by
  rw [processImg_files_eq]
  split
  · exact h
  · simp [h]

theorem getLast?_cons_isSome {A : Type} : ∀ (l : List A) (a : A), (a :: l).getLast? ≠ none := by
  intro l
  induction l with
  | nil =>
    intro a h
    rw [List.getLast?_singleton] at h
    cases h
  | cons b t ih =>
    intro a h
    rw [List.getLast?_cons_cons] at h
    exact ih b h

theorem processLoop_files_mono : ∀ (imgs : List Candidate) (st : PullState) (k : String),
    k ∈ st.files → k ∈ (processLoop st imgs).files := by
  intro imgs
  induction imgs with
  | nil => intro st k h; exact h
  | cons i rest ih =>
    intro st k h
    exact ih (processImg st i) k (processImg_files_mono st i k h)

theorem processLoop_key_mem : ∀ (imgs : List Candidate) (st : PullState) (img : Candidate),
    img ∈ imgs → datetimeToString img.time ∈ (processLoop st imgs).files := by
  intro imgs
  induction imgs with
  | nil => intro st img h; simp at h
  | cons i rest ih =>
    intro st img h
    rcases List.mem_cons.mp h with rfl | h
    · exact processLoop_files_mono rest (processImg st img) _ (processImg_key_mem st img)
    · exact ih (processImg st i) img h

theorem processLoop_fixed : ∀ (imgs : List Candidate) (st : PullState),
    (∀ img ∈ imgs, datetimeToString img.time ∈ st.files) → processLoop st imgs = st := by
  intro imgs
  induction imgs with
  | nil => intro st _; rfl
  | cons i rest ih =>
    intro st h
    have h1 : processImg st i = st := processImg_of_seen st i (h i (by simp))
    show processLoop (processImg st i) rest = st
    rw [h1]
    exact ih st (fun img hm => h img (by simp [hm]))

/-- C3: pull is idempotent over an unchanged store: running it a second
time against the same listing leaves the DetectionRecord list, the hourly
buckets, the persisted-image list and the processed-keys list exactly as
the first run left them — no duplicate record, no double increment, no
new image. -/
theorem pull_idempotent (store : List S3Obj) (st : PullState) :
    (pull store (pull store st).1).1.map_data = (pull store st).1.map_data ∧
    (pull store (pull store st).1).1.hourly = (pull store st).1.hourly ∧
    (pull store (pull store st).1).1.persisted = (pull store st).1.persisted ∧
    (pull store (pull store st).1).1.files = (pull store st).1.files := by
  rcases hs : scan store with _ | imgs
  · have h1 : pull store st = (st, false) := by
      unfold pull
      rw [hs]
    simp [h1]
  · rcases imgs with _ | ⟨i0, irest⟩
    · have h1 : pull store st = (st, false) := by
        unfold pull
        rw [hs]
        rfl
      simp [h1]
    · rcases hgl : (i0 :: irest).getLast? with _ | lastI
      · exact absurd hgl (getLast?_cons_isSome irest i0)
      · have h1 := pull_eq_of_last store st (i0 :: irest) lastI hs hgl
        have hkeys : ∀ img ∈ (i0 :: irest), datetimeToString img.time ∈
            ({ processLoop st (i0 :: irest) with
               mostRecent := some (datetimeToString lastI.time) } : PullState).files := by
          intro img hm
          show datetimeToString img.time ∈ (processLoop st (i0 :: irest)).files
          exact processLoop_key_mem (i0 :: irest) st img hm
        have h2 := pull_eq_of_last store
          ({ processLoop st (i0 :: irest) with
             mostRecent := some (datetimeToString lastI.time) }) (i0 :: irest) lastI hs hgl
        have h3 : processLoop
            ({ processLoop st (i0 :: irest) with
               mostRecent := some (datetimeToString lastI.time) }) (i0 :: irest) =
            ({ processLoop st (i0 :: irest) with
               mostRecent := some (datetimeToString lastI.time) }) :=
          processLoop_fixed (i0 :: irest) _ hkeys
        rw [h1]
        dsimp only
        rw [h2, h3]
        exact ⟨rfl, rfl, rfl, rfl⟩

/-- C8: after any pull whose scan yields at least one candidate, the
mostRecent pointer equals the formatted timestamp of the last iterated
candidate and the call returns normally — unconditionally, whatever the
prior state (in particular whether or not the candidate's dedup key was
already in files) and regardless of chronological order. -/
theorem pull_mostRecent_lastWriteWins (store : List S3Obj) (st : PullState)
    (imgs : List Candidate) (img : Candidate)
    (hs : scan store = some imgs) (hl : imgs.getLast? = some img) :
    (pull store st).1.mostRecent = some (datetimeToString img.time) ∧
    (pull store st).2 = true := by
  rw [pull_eq_of_last store st imgs img hs hl]
  exact ⟨rfl, rfl⟩

/-- The single candidate finalized from demoFrameObjs. -/
def demoCand : Candidate := ⟨[171, 205], ⟨3, 0⟩, some demoMd⟩

/-- A state that has already seen demoCand's dedup key. -/
def demoSeenState : PullState := ⟨[datetimeToString ⟨3, 0⟩], [], [], [], none⟩

/-- Closed instance of C8: even with the candidate's key already in
files, the pointer is rewritten to that candidate's timestamp. -/
theorem pull_mostRecent_lastWriteWins_witness :
    (pull demoFrameObjs demoSeenState).1.mostRecent =
      some (datetimeToString (⟨3, 0⟩ : PyTime)) ∧
    (pull demoFrameObjs demoSeenState).2 = true :=
  pull_mostRecent_lastWriteWins demoFrameObjs demoSeenState [demoCand] demoCand
    (by decide) (by decide)

/-- C9: when the scanner finalizes zero frames (empty store, or no End
token), pull terminates abnormally — the TypeError raised when
subscripting the still-None newest entry at the pointer update — rather
than returning normally with the pointer untouched; no instance field is
changed. -/
theorem pull_zero_frames_raises (store : List S3Obj) (st : PullState)
    (hs : scan store = some []) :
    pull store st = (st, false) := by
  unfold pull
  rw [hs]
  rfl

/-- The pristine pullS3 instance state. -/
def emptyPullState : PullState := ⟨[], [], [], [], none⟩

/-- Closed instance of C9 at the empty store. -/
theorem pull_zero_frames_raises_witness :
    pull [] emptyPullState = (emptyPullState, false) :=
  pull_zero_frames_raises [] emptyPullState (by decide)

theorem processImg_map_data_eq (st : PullState) (img : Candidate) :
    (processImg st img).map_data =
      if datetimeToString img.time ∈ st.files then st.map_data
      else if mdTruthy img.md = true then st.map_data ++ [mkRecord img]
      else st.map_data := by
  unfold processImg
  by_cases h0 : datetimeToString img.time ∈ st.files
  · rw [if_pos h0, if_pos h0]
  · rw [if_neg h0, if_neg h0]
    dsimp only
    by_cases hmd : mdTruthy img.md = true
    · simp only [hmd]
      rw [apply_ite PullState.map_data]
      dsimp only
      rw [ite_self]
      simp
    · have hmd2 : mdTruthy img.md = false := by
        revert hmd
        cases mdTruthy img.md <;> simp
      simp only [hmd2]
      rw [apply_ite PullState.map_data]
      dsimp only
      rw [ite_self]
      simp

theorem processImg_map_data_mem (st : PullState) (img : Candidate) (r : DetectionRecord)
    (h : r ∈ (processImg st img).map_data) : r ∈ st.map_data ∨ r = mkRecord img := by
  rw [processImg_map_data_eq] at h
  split at h
  · exact Or.inl h
  · split at h
    · simp only [List.mem_append, List.mem_singleton] at h
      exact h
    · exact Or.inl h

theorem processLoop_map_data_mem : ∀ (imgs : List Candidate) (st : PullState)
    (r : DetectionRecord), r ∈ (processLoop st imgs).map_data →
    r ∈ st.map_data ∨ ∃ img, r = mkRecord img := by
  intro imgs
  induction imgs with
  | nil => intro st r h; exact Or.inl h
  | cons i rest ih =>
    intro st r h
    rcases ih (processImg st i) r h with h1 | h1
    · rcases processImg_map_data_mem st i r h1 with h2 | h2
      · exact Or.inl h2
      · exact Or.inr ⟨i, h2⟩
    · exact Or.inr h1

/-- C10: every DetectionRecord a pull adds to map_data is built by
mkRecord from some candidate, and its `_size_` column equals the parsed
cluster-count metadata field (index 2, which is also its Number of
Clusters column) plus one. -/
theorem pull_sizeWeight (store : List S3Obj) (st : PullState) (r : DetectionRecord)
    (h : r ∈ (pull store st).1.map_data) :
    r ∈ st.map_data ∨
      ∃ img, r = mkRecord img ∧
        r.numberOfClusters = pyFloat ((img.md.getD []).getD 2 []) ∧
        r.sizeWeight = pyFloat ((img.md.getD []).getD 2 []) + 1 := by
  have hmem : r ∈ st.map_data ∨ ∃ img, r = mkRecord img := by
    rcases hs : scan store with _ | imgs
    · have h1 : pull store st = (st, false) := by
        unfold pull
        rw [hs]
      rw [h1] at h
      exact Or.inl h
    · rcases hgl : imgs.getLast? with _ | lastI
      · have h1 : pull store st = (processLoop st imgs, false) := by
          rw [pull_eq_of_scan store st imgs hs, hgl]
        rw [h1] at h
        exact processLoop_map_data_mem imgs st r h
      · have h1 := pull_eq_of_last store st imgs lastI hs hgl
        rw [h1] at h
        exact processLoop_map_data_mem imgs st r h
  rcases hmem with h1 | ⟨img, rfl⟩
  · exact Or.inl h1
  · exact Or.inr ⟨img, rfl, rfl, rfl⟩

/-- Closed instance of C10 at the record produced from the concrete
frame. -/
theorem pull_sizeWeight_witness :
    mkRecord demoCand ∈ emptyPullState.map_data ∨
      ∃ img, mkRecord demoCand = mkRecord img ∧
        (mkRecord demoCand).numberOfClusters = pyFloat ((img.md.getD []).getD 2 []) ∧
        (mkRecord demoCand).sizeWeight = pyFloat ((img.md.getD []).getD 2 []) + 1 :=
  pull_sizeWeight demoFrameObjs emptyPullState (mkRecord demoCand) (by
    have h1 : scan demoFrameObjs = some [demoCand] := by decide
    have h2 := pull_eq_of_last demoFrameObjs emptyPullState [demoCand] demoCand h1
      (by rw [List.getLast?_singleton])
    rw [h2]
    show mkRecord demoCand ∈ (processImg emptyPullState demoCand).map_data
    rw [processImg_map_data_eq]
    rw [if_neg (by simp [emptyPullState])]
    rw [if_pos (by decide)]
    simp)
